import Mathlib

/-!
Shallow embedding of the analytics dashboard's data pipeline
(`src/unnamed/part_000`, with `src/src/App.tsx` an earlier variant of the
same component): row normalization (`parseDate`, `mapRowToPost`), record
store ingestion, the filter stage (`filteredPosts`), and the aggregators
(`kpi`, `viewsByWeekday`, `erByWeekday`, `gapStats`, `timeOfDayStats`,
`heatmapData`).

Modelling conventions:
  * JavaScript numbers are embedded as `ℚ`; `NaN`/`±Infinity` results of a
    coercion are `none` in an `Option ℚ` (the code only ever looks at them
    through `isFinite` / `|| 0` style checks, so this is faithful).
  * A JavaScript `Date` object's entire observable state is its millisecond
    timestamp, so `JsDate := Int`; `getTime` is the identity and the
    calendar-dependent accessors (`getFullYear`, `getDay`, `setHours`, ...)
    plus the host builtins (`Number(string)`, `new Date(string)`,
    `XLSX.SSF.parse_date_code`) are fields of a `JsEnv` parameter: the
    theorems hold for every such environment.
  * Spreadsheet cells (from `sheet_to_json` with `defval: ""`) are strings,
    finite numbers, native dates, `null` or `undefined` (`Cell`).
  * Mutable `Map` accumulation loops are embedded as `List.foldl` over
    either a total function `String → BucketAgg` (the gap / time-of-day
    loops, whose maps are pre-seeded with every bucket id) or an ordered
    association list (the weekday / heatmap loops, whose maps grow in
    first-occurrence order).
-/

/-- A JS `Date`: its observable state is exactly its `getTime()` value in
milliseconds (possibly negative for pre-epoch dates). -/
abbrev JsDate := Int

/-- The builtin `Date.prototype.getTime`. -/
def getTime (d : JsDate) : Int := d

/-- A spreadsheet cell value as produced by `XLSX.utils.sheet_to_json`
(with `defval: ""`): a string, a finite number, a native date, `null` or
`undefined` (absent column). -/
inductive Cell where
  | num (q : ℚ)
  | str (s : String)
  | date (d : JsDate)
  | nullv
  | undef
deriving DecidableEq

/-- JS truthiness of a cell: `0`, `""`, `null` and `undefined` are falsy,
everything else (including any `Date` object) is truthy. -/
def isTruthyCell : Cell → Bool
  | .num q => decide (q ≠ 0)
  | .str s => decide (s ≠ "")
  | .date _ => true
  | .nullv => false
  | .undef => false

/-- The object returned by `XLSX.SSF.parse_date_code`: calendar fields of a
spreadsheet date serial, as JS numbers. -/
structure DateParts where
  y : ℚ
  m : ℚ
  d : ℚ
  H : ℚ
  M : ℚ
  S : ℚ
deriving DecidableEq

/-- The host environment: the JS / library builtins the component calls.
`numOfStr` is `Number(string)` (`none` for a non-finite result),
`parseDateCode` is `XLSX.SSF.parse_date_code` (`none` when it yields a falsy
value), `dateFromString` is `new Date(string)` (`none` for an Invalid Date),
`mkDate` is the `new Date(y, m, d, H, M, S)` constructor, `setHoursMS` is
`Date.prototype.setHours(h, m, s, 0)`, and the remaining fields are the
local-calendar accessors and string conversions.  All pipeline definitions
are parameterized by a `JsEnv`; theorems hold for every environment. -/
structure JsEnv where
  numOfStr : String → Option ℚ
  parseDateCode : ℚ → Option DateParts
  dateFromString : String → Option JsDate
  mkDate : ℚ → ℚ → ℚ → ℚ → ℚ → ℚ → JsDate
  setHoursMS : JsDate → ℚ → ℚ → ℚ → JsDate
  getFullYear : JsDate → Int
  getMonth : JsDate → Nat
  getDay : JsDate → Nat
  getHours : JsDate → Nat
  toISOString : JsDate → String
  dateToString : JsDate → String
  numToString : ℚ → String

/-- The fixed weekday label lookup `WEEKDAYS` (0 = Sunday). -/
def WEEKDAYS : List String := ["Вс", "Пн", "Вт", "Ср", "Чт", "Пт", "Сб"]

/-- One entry of `GAP_BUCKETS`: a half-open gap range `[min, max)` in hours;
`max = none` stands for `Infinity`. -/
structure GapBucket where
  id : String
  label : String
  min : ℚ
  max : Option ℚ
deriving DecidableEq

/-- The five fixed gap buckets (`GAP_BUCKETS` in the source). -/
def GAP_BUCKETS : List GapBucket :=
  [ { id := "<6", label := "< 6 часов", min := 0, max := some 6 },
    { id := "6-12", label := "6–12 часов", min := 6, max := some 12 },
    { id := "12-24", label := "12–24 часа", min := 12, max := some 24 },
    { id := "24-48", label := "24–48 часов", min := 24, max := some 48 },
    { id := ">48", label := "> 48 часов", min := 48, max := none } ]

/-- One entry of `TIME_SEGMENTS`: a half-open hour-of-day range
`[minHour, maxHour)`. -/
structure TimeSegment where
  id : String
  label : String
  minHour : Nat
  maxHour : Nat
deriving DecidableEq

/-- The five fixed time-of-day segments (`TIME_SEGMENTS` in the source). -/
def TIME_SEGMENTS : List TimeSegment :=
  [ { id := "night", label := "00–06 (ночь)", minHour := 0, maxHour := 6 },
    { id := "morning", label := "06–10 (утро)", minHour := 6, maxHour := 10 },
    { id := "day", label := "10–17 (день)", minHour := 10, maxHour := 17 },
    { id := "evening", label := "17–22 (вечер)", minHour := 17, maxHour := 22 },
    { id := "late", label := "22–24 (поздний вечер)", minHour := 22, maxHour := 24 } ]

/-- The normalized `PostRecord` of the source (`er` is the engagement rate
stored as a fraction). -/
structure PostRecord where
  id : Nat
  date : String
  dateObj : JsDate
  monthKey : String
  weekdayIndex : Nat
  weekdayLabel : String
  hour : Nat
  views : ℚ
  reactions : ℚ
  er : ℚ
  postType : String
deriving DecidableEq

/-- One raw spreadsheet row, restricted to the seven columns the normalizer
reads (`"Дата"`, `"Время поста"`, the two view-count columns,
`"Количество реакций"`, `"Тип поста"`, `"ER (Engagement Rate)"`). -/
structure RawRow where
  date : Cell
  time : Cell
  viewsToday : Cell
  viewsTotal : Cell
  reactions : Cell
  postType : Cell
  er : Cell
deriving DecidableEq

/-- JS `??` (nullish coalescing) on cells. -/
def nullishOr (a b : Cell) : Cell :=
  match a with
  | .nullv => b
  | .undef => b
  | _ => a

/-- The coercion `Number(cell)`, with `none` standing for a non-finite result: numbers
coerce to themselves, strings through the host parser, a `Date` to its
timestamp, `null` to `0` and `undefined` to `NaN`. -/
def jsToNum (env : JsEnv) : Cell → Option ℚ
  | .num q => some q
  | .str s => env.numOfStr s
  | .date d => some ((getTime d : Int) : ℚ)
  | .nullv => some 0
  | .undef => none

/-- The pattern `Number(cell) || 0`: the `|| 0` turns `NaN` into `0` and keeps every
other value (`0` maps to `0` either way). -/
def numOr0 (env : JsEnv) (c : Cell) : ℚ := (jsToNum env c).getD 0

/-- The presence test the normalizer applies to the ER cell:
`erRaw !== undefined && erRaw !== null && erRaw !== ""`. -/
def cellPresent : Cell → Bool
  | .undef => false
  | .nullv => false
  | .str s => decide (s ≠ "")
  | _ => true

/-- The conversion `String(cell)` for the cell shapes the component feeds it. -/
def jsStringOf (env : JsEnv) : Cell → String
  | .num q => env.numToString q
  | .str s => s
  | .date d => env.dateToString d
  | .nullv => "null"
  | .undef => "undefined"

/-- The builtin `Math.round` (half toward positive infinity). -/
def jsRound (q : ℚ) : Int := ⌊q + 1 / 2⌋

/-- The pattern `value || d` on JS numbers: a falsy (zero) value is replaced by the
default (used for the `parsed.m || 1` style field defaults). -/
def numOrDefault (x d : ℚ) : ℚ := if x = 0 then d else x

/-- The function `parseDate` of the source: the falsy check first, then the numeric
spreadsheet date serial (via `parse_date_code`), a native `Date`, or a date
string (`none` when `new Date(value)` is invalid). -/
def parseDate (env : JsEnv) (value : Cell) : Option JsDate :=
  if isTruthyCell value = false then none
  else
    match value with
    | .num q =>
        match env.parseDateCode q with
        | none => none
        | some p =>
            some (env.mkDate p.y (numOrDefault p.m 1 - 1) (numOrDefault p.d 1)
              (numOrDefault p.H 0) (numOrDefault p.M 0) (numOrDefault p.S 0))
    | .date d => some d
    | .str s => env.dateFromString s
    | .nullv => none
    | .undef => none

/-- The time-of-day merge of `mapRowToPost`: a truthy time cell overrides
the date's time.  A numeric cell is an Excel day fraction
(`round(value * 1440)` minutes, split by `floor` / JS `%`); anything else is
stringified and split on `":"` with missing / unparseable components
defaulting to `0`. -/
def mergeTime (env : JsEnv) (rawTime : Cell) (d : JsDate) : JsDate :=
  if isTruthyCell rawTime = false then d
  else
    match rawTime with
    | .num q =>
        let totalMinutes : Int := jsRound (q * 24 * 60)
        let hours : Int := Int.fdiv totalMinutes 60
        let minutes : Int := Int.tmod totalMinutes 60
        env.setHoursMS d (hours : ℚ) (minutes : ℚ) 0
    | c =>
        let timeStr := (jsStringOf env c).trim
        let parts := timeStr.splitOn ":"
        let h := ((env.numOfStr (parts.getD 0 "0")).getD 0)
        let m := ((env.numOfStr (parts.getD 1 "0")).getD 0)
        let s := ((env.numOfStr (parts.getD 2 "0")).getD 0)
        env.setHoursMS d h m s

/-- The call `month.toString().padStart(2, "0")` for the month-key. -/
def pad2 (s : String) : String :=
  String.mk (List.replicate (2 - s.length) '0') ++ s

/-- The engagement-rate resolution of `mapRowToPost` (identical in both
source files): an explicit, present ER cell is parsed as a percentage and
divided by 100 (0 when not finite); otherwise the rate is derived as
`reactions / views` when `views > 0`, else 0. -/
def deriveEr (env : JsEnv) (erCell : Cell) (views reactions : ℚ) : ℚ :=
  if cellPresent erCell then
    match jsToNum env erCell with
    | some erNum => erNum / 100
    | none => 0
  else if 0 < views then reactions / views else 0

/-- The function `mapRowToPost` of `src/unnamed/part_000`: maps one raw row (plus its
ingestion index) to a `PostRecord`, or `none` to skip the row.  Follows the
source line by line: date resolution (skip on failure), time merge, numeric
coercion with `|| 0` defaults, the explicit-ER / derived-ER branch, and the
calendar-derived fields. -/
def mapRowToPost (env : JsEnv) (row : RawRow) (index : Nat) : Option PostRecord :=
  let viewsRaw := nullishOr row.viewsToday row.viewsTotal
  let postTypeRaw := nullishOr row.postType (Cell.str "Без типа")
  match parseDate env row.date with
  | none => none
  | some d0 =>
      let dateObj := mergeTime env row.time d0
      let views := numOr0 env viewsRaw
      let reactions := numOr0 env row.reactions
      let er : ℚ := deriveEr env row.er views reactions
      let year := env.getFullYear dateObj
      let month := env.getMonth dateObj + 1
      let monthKey := toString year ++ "-" ++ pad2 (toString month)
      let weekdayIndex := env.getDay dateObj
      let weekdayLabel := WEEKDAYS.getD weekdayIndex ""
      let hour := env.getHours dateObj
      some
        { id := index
          date := match row.date with
                  | .str s => s
                  | _ => env.toISOString dateObj
          dateObj := dateObj
          monthKey := monthKey
          weekdayIndex := weekdayIndex
          weekdayLabel := weekdayLabel
          hour := hour
          views := views
          reactions := reactions
          er := er
          postType := jsStringOf env (nullishOr postTypeRaw (Cell.str "Без типа")) }

/-- The time-of-day merge of the `src/src/App.tsx` variant: every truthy
time cell is stringified and split on `":"`; missing or unparseable
components become `NaN` and hence 0 through `|| 0`. -/
def mergeTimeApp (env : JsEnv) (rawTime : Cell) (d : JsDate) : JsDate :=
  if isTruthyCell rawTime = false then d
  else
    let timeStr := (jsStringOf env rawTime).trim
    let parts := timeStr.splitOn ":"
    let h := match parts.get? 0 with | some st => (env.numOfStr st).getD 0 | none => 0
    let m := match parts.get? 1 with | some st => (env.numOfStr st).getD 0 | none => 0
    let sc := match parts.get? 2 with | some st => (env.numOfStr st).getD 0 | none => 0
    env.setHoursMS d h m sc

/-- The function `mapRowToPost` of `src/src/App.tsx`: identical to the
`src/unnamed/part_000` version except for the time-cell merge. -/
def mapRowToPostApp (env : JsEnv) (row : RawRow) (index : Nat) : Option PostRecord :=
  let viewsRaw := nullishOr row.viewsToday row.viewsTotal
  let postTypeRaw := nullishOr row.postType (Cell.str "Без типа")
  match parseDate env row.date with
  | none => none
  | some d0 =>
      let dateObj := mergeTimeApp env row.time d0
      let views := numOr0 env viewsRaw
      let reactions := numOr0 env row.reactions
      let er : ℚ := deriveEr env row.er views reactions
      let year := env.getFullYear dateObj
      let month := env.getMonth dateObj + 1
      let monthKey := toString year ++ "-" ++ pad2 (toString month)
      let weekdayIndex := env.getDay dateObj
      let weekdayLabel := WEEKDAYS.getD weekdayIndex ""
      let hour := env.getHours dateObj
      some
        { id := index
          date := match row.date with
                  | .str s => s
                  | _ => env.toISOString dateObj
          dateObj := dateObj
          monthKey := monthKey
          weekdayIndex := weekdayIndex
          weekdayLabel := weekdayLabel
          hour := hour
          views := views
          reactions := reactions
          er := er
          postType := jsStringOf env (nullishOr postTypeRaw (Cell.str "Без типа")) }

/-! ## Record Store ingestion -/

/-- The comparator of the ingestion sort,
`(a, b) => a.dateObj.getTime() - b.dateObj.getTime()`, as the total preorder
it induces on records. -/
def tsLE (a b : PostRecord) : Prop := getTime a.dateObj ≤ getTime b.dateObj

instance : DecidableRel tsLE := fun a b =>
  inferInstanceAs (Decidable (getTime a.dateObj ≤ getTime b.dateObj))

instance : IsTotal PostRecord tsLE := ⟨fun _ _ => Int.le_total _ _⟩

instance : IsTrans PostRecord tsLE := ⟨fun _ _ _ h h' => le_trans h h'⟩

/-- The records the upload handler collects before sorting:
`json.forEach((row, idx) => { const mapped = mapRowToPost(row, idx); if
(mapped) parsed.push(mapped); })` — each row is normalized with its original
index, skipped rows are omitted. -/
def parsedRecords (env : JsEnv) (rows : List RawRow) : List PostRecord :=
  rows.enum.filterMap fun p => mapRowToPost env p.2 p.1

/-- The pure core of `handleFileUpload`: normalize every row, drop the
skipped ones, and sort ascending by timestamp.  ES2019 `Array.prototype.sort`
is a stable sort, which insertion sort by `tsLE` realizes exactly. -/
def ingestRows (env : JsEnv) (rows : List RawRow) : List PostRecord :=
  List.insertionSort tsLE (parsedRecords env rows)

/-! ## Filter stage -/

/-- The filter predicate of `filteredPosts` (early-return style in the
source: a record is dropped as soon as one active selector mismatches). -/
def postKept (selMonth selPostType selWeekday : String) (p : PostRecord) : Bool :=
  if selMonth ≠ "all" && p.monthKey ≠ selMonth then false
  else if selPostType ≠ "all" && p.postType ≠ selPostType then false
  else if selWeekday ≠ "all" && p.weekdayLabel ≠ selWeekday then false
  else true

/-- The memo `filteredPosts`: the record store narrowed by the three selectors. -/
def filteredPosts (posts : List PostRecord) (selMonth selPostType selWeekday : String) :
    List PostRecord :=
  posts.filter (postKept selMonth selPostType selWeekday)

/-- Spec-side predicate, written from the spec's words: a record satisfies
all active (non-"all") month / post-type / weekday selectors. -/
def matchesSelectors (selMonth selPostType selWeekday : String) (p : PostRecord) : Prop :=
  (selMonth = "all" ∨ p.monthKey = selMonth) ∧
  (selPostType = "all" ∨ p.postType = selPostType) ∧
  (selWeekday = "all" ∨ p.weekdayLabel = selWeekday)

instance (m t w : String) (p : PostRecord) : Decidable (matchesSelectors m t w p) :=
  inferInstanceAs (Decidable (_ ∧ _ ∧ _))

/-! ## KPI summary -/

/-- The `kpi` record: four scalars. -/
structure Kpi where
  totalPosts : Nat
  avgViews : ℚ
  avgReactions : ℚ
  avgEr : ℚ
deriving DecidableEq

/-- The `kpi` aggregator: all zeros on an empty selection, otherwise count
and the three arithmetic means (`avgEr` stays a raw fraction). -/
def kpi (l : List PostRecord) : Kpi :=
  if l.length = 0 then
    { totalPosts := 0, avgViews := 0, avgReactions := 0, avgEr := 0 }
  else
    let totalPosts := l.length
    let sumViews := l.foldl (fun acc p => acc + p.views) 0
    let sumReactions := l.foldl (fun acc p => acc + p.reactions) 0
    { totalPosts := totalPosts
      avgViews := sumViews / totalPosts
      avgReactions := sumReactions / totalPosts
      avgEr := (l.foldl (fun acc p => acc + p.er) 0) / totalPosts }

/-! ## Gap-bucket and time-of-day aggregators -/

/-- The per-bucket accumulator cell of the gap / time-of-day loops. -/
structure BucketAgg where
  viewsSum : ℚ
  erSum : ℚ
  count : Nat
deriving DecidableEq

/-- One step of a bucket-accumulation loop: add `v1 x` / `v2 x` to the cell
keyed by `keyOf x` and bump its count (the map is modelled as a total
function, zero-initialized like the pre-seeded `Map`). -/
def tallyStep {X : Type} (keyOf : X → String) (v1 v2 : X → ℚ)
    (m : String → BucketAgg) (x : X) : String → BucketAgg :=
  let bid := keyOf x
  fun k =>
    if k = bid then
      { viewsSum := (m bid).viewsSum + v1 x
        erSum := (m bid).erSum + v2 x
        count := (m bid).count + 1 }
    else m k

/-- A whole bucket-accumulation loop over `xs`. -/
def tallyFold {X : Type} (keyOf : X → String) (v1 v2 : X → ℚ) (xs : List X) :
    String → BucketAgg :=
  xs.foldl (tallyStep keyOf v1 v2) (fun _ => { viewsSum := 0, erSum := 0, count := 0 })

/-- The quantity `gapHours` for one consecutive pair:
`(cur.getTime() - prev.getTime()) / (1000 * 60 * 60)`. -/
def gapHours (prev cur : PostRecord) : ℚ :=
  ((getTime cur.dateObj - getTime prev.dateObj : Int) : ℚ) / (1000 * 60 * 60)

/-- The half-open membership test `gapHours >= b.min && gapHours < b.max`
(`b.max = none` is `Infinity`, so the upper test is vacuous). -/
def inGapBucket (g : ℚ) (b : GapBucket) : Bool :=
  decide (b.min ≤ g) &&
    (match b.max with
     | none => true
     | some mx => decide (g < mx))

/-- Bucket selection for one gap:
`GAP_BUCKETS.find(...) ?? GAP_BUCKETS[GAP_BUCKETS.length - 1]`. -/
def gapBucketOf (g : ℚ) : GapBucket :=
  (GAP_BUCKETS.find? (inGapBucket g)).getD
    (GAP_BUCKETS.getLastD { id := "", label := "", min := 0, max := none })

/-- The bucket id a consecutive pair is tallied under. -/
def gapKeyOf (pc : PostRecord × PostRecord) : String :=
  (gapBucketOf (gapHours pc.1 pc.2)).id

/-- The consecutive pairs `(sorted[i-1], sorted[i])`, `i = 1 .. n-1`, of the
re-sorted selection (the source sorts a copy of the filtered array). -/
def gapPairs (l : List PostRecord) : List (PostRecord × PostRecord) :=
  let sorted := List.insertionSort tsLE l
  sorted.zip sorted.tail

/-- The accumulator map of `gapStats` after its pair loop, keyed by bucket
id; the *current* (second) record of each pair contributes its views and
engagement rate. -/
def gapAggMap (l : List PostRecord) : String → BucketAgg :=
  tallyFold gapKeyOf (fun pc => pc.2.views) (fun pc => pc.2.er) (gapPairs l)

/-- One output row of `gapStats`. -/
structure GapOut where
  bucketId : String
  bucketLabel : String
  avgViews : ℚ
  avgErPercent : ℚ
deriving DecidableEq

/-- The aggregator `gapStats`: empty below 2 records, otherwise the five fixed buckets in
`GAP_BUCKETS` order, each with zero-filled averages when its count is 0. -/
def gapStats (l : List PostRecord) : List GapOut :=
  if l.length < 2 then []
  else
    GAP_BUCKETS.map fun b =>
      let agg := gapAggMap l b.id
      { bucketId := b.id
        bucketLabel := b.label
        avgViews := if agg.count ≠ 0 then agg.viewsSum / (agg.count : ℚ) else 0
        avgErPercent := if agg.count ≠ 0 then (agg.erSum / (agg.count : ℚ)) * 100 else 0 }

/-- The per-bucket counts of the gap aggregator's accumulation loop, in
`GAP_BUCKETS` order. -/
def gapBucketCounts (l : List PostRecord) : List Nat :=
  GAP_BUCKETS.map fun b => (gapAggMap l b.id).count

/-- Segment membership `p.hour >= s.minHour && p.hour < s.maxHour`. -/
def inTimeSegment (h : Nat) (s : TimeSegment) : Bool :=
  decide (s.minHour ≤ h) && decide (h < s.maxHour)

/-- Segment selection `TIME_SEGMENTS.find(...) ?? TIME_SEGMENTS[0]`. -/
def timeSegmentOf (h : Nat) : TimeSegment :=
  (TIME_SEGMENTS.find? (inTimeSegment h)).getD
    (TIME_SEGMENTS.getD 0 { id := "", label := "", minHour := 0, maxHour := 0 })

/-- The segment id a record is tallied under. -/
def todKeyOf (p : PostRecord) : String := (timeSegmentOf p.hour).id

/-- The accumulator map of `timeOfDayStats` after its record loop. -/
def todAggMap (l : List PostRecord) : String → BucketAgg :=
  tallyFold todKeyOf (fun p => p.views) (fun p => p.er) l

/-- One output row of `timeOfDayStats`. -/
structure TodOut where
  segmentId : String
  segmentLabel : String
  avgViews : ℚ
  avgErPercent : ℚ
deriving DecidableEq

/-- The aggregator `timeOfDayStats`: empty on an empty selection, otherwise the five fixed
segments in `TIME_SEGMENTS` order, zero-filled when empty. -/
def timeOfDayStats (l : List PostRecord) : List TodOut :=
  if l.length = 0 then []
  else
    TIME_SEGMENTS.map fun s =>
      let agg := todAggMap l s.id
      { segmentId := s.id
        segmentLabel := s.label
        avgViews := if agg.count ≠ 0 then agg.viewsSum / (agg.count : ℚ) else 0
        avgErPercent := if agg.count ≠ 0 then (agg.erSum / (agg.count : ℚ)) * 100 else 0 }

/-- The per-segment counts of the time-of-day aggregator's loop, in
`TIME_SEGMENTS` order. -/
def todBucketCounts (l : List PostRecord) : List Nat :=
  TIME_SEGMENTS.map fun s => (todAggMap l s.id).count

/-- Spec-side description of one `gapStats` output row, written from
§4.7's words: the pairs assigned to the bucket contribute the *current*
(second) post's views and engagement rate, averages are zero-filled when
the bucket received no pairs. -/
def gapBucketOut (pairs : List (PostRecord × PostRecord)) (b : GapBucket) : GapOut :=
  let assigned := pairs.filter fun pc => decide (gapKeyOf pc = b.id)
  { bucketId := b.id
    bucketLabel := b.label
    avgViews :=
      if assigned.length = 0 then 0
      else (assigned.map fun pc => pc.2.views).sum / (assigned.length : ℚ)
    avgErPercent :=
      if assigned.length = 0 then 0
      else ((assigned.map fun pc => pc.2.er).sum / (assigned.length : ℚ)) * 100 }

/-! ## Map-grouping loops (weekday and heatmap aggregators) -/

/-- One step of a `Map`-grouping loop (`viewsByWeekday`, `erByWeekday`,
`heatmapData` all share this shape): when the key is missing a fresh zero
entry is appended (a JS `Map` iterates in insertion order, so new keys go to
the back), then the entry at the key is updated in place. -/
def mapStep {κ α P : Type} [DecidableEq κ] (keyOf : P → κ) (mk0 : P → α)
    (upd : α → P → α) (m : List (κ × α)) (p : P) : List (κ × α) :=
  let m1 := if m.any fun e => decide (e.1 = keyOf p) then m else m ++ [(keyOf p, mk0 p)]
  m1.map fun e => if e.1 = keyOf p then (e.1, upd e.2 p) else e

/-- A whole `Map`-grouping loop: fold the step over the records, starting
from the empty map. -/
def mapFold {κ α P : Type} [DecidableEq κ] (keyOf : P → κ) (mk0 : P → α)
    (upd : α → P → α) (l : List P) : List (κ × α) :=
  l.foldl (mapStep keyOf mk0 upd) []

/-- The keys of a list in first-occurrence order (the key sequence a JS
`Map` built by a grouping loop iterates in). -/
def firstOccKeys {κ : Type} [DecidableEq κ] : List κ → List κ
  | [] => []
  | k :: ks => k :: (firstOccKeys ks).filter fun x => decide (x ≠ k)

/-- The ordering the `.sort(([a], [b]) => a - b)` call on map entries
induces: compare the numeric keys. -/
def keyLE {α : Type} (e1 e2 : Nat × α) : Prop := e1.1 ≤ e2.1

instance {α : Type} : DecidableRel (@keyLE α) := fun e1 e2 =>
  inferInstanceAs (Decidable (e1.1 ≤ e2.1))

instance {α : Type} : IsTotal (Nat × α) keyLE := ⟨fun _ _ => Nat.le_total _ _⟩

instance {α : Type} : IsTrans (Nat × α) keyLE := ⟨fun _ _ _ h h' => le_trans h h'⟩

/-- The accumulator entry of `viewsByWeekday`. -/
structure WdViewsAgg where
  weekday : String
  viewsSum : ℚ
  count : Nat
deriving DecidableEq

/-- One output row of `viewsByWeekday`. -/
structure WdViewsOut where
  weekday : String
  avgViews : ℚ
deriving DecidableEq

/-- The entries of the `viewsByWeekday` map (keyed by `weekdayIndex`),
sorted ascending by key as the source's `.sort(([a],[b]) => a - b)` does. -/
def wdViewsEntries (l : List PostRecord) : List (Nat × WdViewsAgg) :=
  List.insertionSort keyLE
    (mapFold (fun p => p.weekdayIndex)
      (fun p => { weekday := p.weekdayLabel, viewsSum := 0, count := 0 })
      (fun v p => { weekday := v.weekday, viewsSum := v.viewsSum + p.views, count := v.count + 1 })
      l)

/-- The aggregator `viewsByWeekday`: mean views per weekday index present in the
selection, ascending by index, absent weekdays omitted. -/
def viewsByWeekday (l : List PostRecord) : List WdViewsOut :=
  (wdViewsEntries l).map fun e =>
    { weekday := e.2.weekday
      avgViews := if 0 < e.2.count then e.2.viewsSum / (e.2.count : ℚ) else 0 }

/-- The accumulator entry of `erByWeekday`. -/
structure WdErAgg where
  weekday : String
  erSum : ℚ
  count : Nat
deriving DecidableEq

/-- One output row of `erByWeekday`. -/
structure WdErOut where
  weekday : String
  avgErPercent : ℚ
deriving DecidableEq

/-- The entries of the `erByWeekday` map, sorted ascending by weekday
index. -/
def wdErEntries (l : List PostRecord) : List (Nat × WdErAgg) :=
  List.insertionSort keyLE
    (mapFold (fun p => p.weekdayIndex)
      (fun p => { weekday := p.weekdayLabel, erSum := 0, count := 0 })
      (fun v p => { weekday := v.weekday, erSum := v.erSum + p.er, count := v.count + 1 })
      l)

/-- The aggregator `erByWeekday`: mean engagement rate (as a percentage) per weekday index
present in the selection, ascending by index, absent weekdays omitted. -/
def erByWeekday (l : List PostRecord) : List WdErOut :=
  (wdErEntries l).map fun e =>
    { weekday := e.2.weekday
      avgErPercent := if 0 < e.2.count then (e.2.erSum / (e.2.count : ℚ)) * 100 else 0 }

/-- The group of records of a selection with a given weekday index
(spec-side: the records a weekday bucket aggregates). -/
def weekdayGroup (l : List PostRecord) (k : Nat) : List PostRecord :=
  l.filter fun p => decide (p.weekdayIndex = k)

/-! ## Heatmap aggregator -/

/-- The accumulator entry of a heatmap cell. -/
structure HeatAgg where
  weekdayIndex : Nat
  weekday : String
  hour : Nat
  viewsSum : ℚ
  count : Nat
deriving DecidableEq

/-- One populated heatmap cell. -/
structure HeatCell where
  weekdayIndex : Nat
  weekday : String
  hour : Nat
  avgViews : ℚ
deriving DecidableEq

/-- The `heatmapData` result: the sparse populated cells and `maxViews`. -/
structure HeatOut where
  cells : List HeatCell
  maxViews : ℚ
deriving DecidableEq

/-- The heatmap's cell key, the template string `` `${weekdayIndex}-${hour}` ``. -/
def heatKeyOf (p : PostRecord) : String :=
  toString p.weekdayIndex ++ "-" ++ toString p.hour

/-- The `cellMap` of `heatmapData` as an ordered entry list. -/
def heatEntries (l : List PostRecord) : List (String × HeatAgg) :=
  mapFold heatKeyOf
    (fun p => { weekdayIndex := p.weekdayIndex, weekday := p.weekdayLabel, hour := p.hour,
                viewsSum := 0, count := 0 })
    (fun v p => { v with viewsSum := v.viewsSum + p.views, count := v.count + 1 })
    l

/-- The populated cells of the heatmap, in `cellMap` iteration order. -/
def heatCells (l : List PostRecord) : List HeatCell :=
  (heatEntries l).map fun e =>
    { weekdayIndex := e.2.weekdayIndex
      weekday := e.2.weekday
      hour := e.2.hour
      avgViews := if 0 < e.2.count then e.2.viewsSum / (e.2.count : ℚ) else 0 }

/-- The reduction `cells.reduce((m, c) => Math.max(m, c.avgViews), 0)`. -/
def heatFoldMax (cells : List HeatCell) : ℚ :=
  cells.foldl (fun m c => max m c.avgViews) 0

/-- The aggregator `heatmapData`: the sparse populated cells plus
`maxViews = (reduce max 0) || 1` (the `|| 1` replaces a falsy 0 by 1). -/
def heatmapData (l : List PostRecord) : HeatOut :=
  let cells := heatCells l
  let m := heatFoldMax cells
  { cells := cells, maxViews := if m = 0 then 1 else m }

/-! ## Concrete material for the closed witness and counterexample
theorems -/

/-- A concrete host environment for closed evaluations: the string parsers
always fail, the calendar accessors are constant.  (Which concrete values
they return is irrelevant to the properties being witnessed.) -/
def cEnv : JsEnv :=
  { numOfStr := fun _ => none
    parseDateCode := fun _ => none
    dateFromString := fun _ => none
    mkDate := fun _ _ _ _ _ _ => 0
    setHoursMS := fun d _ _ _ => d
    getFullYear := fun _ => 2024
    getMonth := fun _ => 0
    getDay := fun _ => 1
    getHours := fun _ => 9
    toISOString := fun _ => "iso"
    dateToString := fun _ => "date"
    numToString := fun _ => "num" }

/-- A concrete record (Monday 9:00, zero metrics). -/
def rec0 : PostRecord :=
  { id := 0, date := "d", dateObj := 0, monthKey := "2024-01", weekdayIndex := 1,
    weekdayLabel := "Пн", hour := 9, views := 0, reactions := 0, er := 0,
    postType := "Без типа" }

/-- A second copy of `rec0` (same timestamp, different id). -/
def rec1 : PostRecord := { rec0 with id := 1 }

/-- A raw row with a valid date, 4 views, 1 reaction and a blank ER cell
(the parser's `defval: ""`), so the engagement rate is derived. -/
def rowER : RawRow :=
  { date := .date 0, time := .undef, viewsToday := .num 4, viewsTotal := .undef,
    reactions := .num 1, postType := .undef, er := .str "" }

/-- The record `mapRowToPost` produces for `rowER` under `cEnv`. -/
def recER : PostRecord :=
  { id := 0, date := "iso", dateObj := 0, monthKey := "2024-01", weekdayIndex := 1,
    weekdayLabel := "Пн", hour := 9, views := 4, reactions := 1, er := (1 : ℚ) / 4,
    postType := "Без типа" }

/-- A raw row whose reactions cell holds the (finite) number `-1`. -/
def rowNeg : RawRow :=
  { date := .date 0, time := .undef, viewsToday := .num 4, viewsTotal := .undef,
    reactions := .num (-1), postType := .undef, er := .undef }

/-- The record `mapRowToPost` produces for `rowNeg` under `cEnv`: negative
reactions and a negative derived engagement rate. -/
def recNeg : PostRecord :=
  { id := 0, date := "iso", dateObj := 0, monthKey := "2024-01", weekdayIndex := 1,
    weekdayLabel := "Пн", hour := 9, views := 4, reactions := -1, er := (-1 : ℚ) / 4,
    postType := "Без типа" }

/-- Three records in the same heatmap cell `(weekday 1, hour 9)` with views
10, 20, 30 — the example of §8. -/
def hrec1 : PostRecord := { rec0 with views := 10 }

def hrec2 : PostRecord := { rec0 with id := 1, views := 20 }

def hrec3 : PostRecord := { rec0 with id := 2, views := 30 }

/-! ## Characterization of the bucket-accumulation loops -/

/-- Running a bucket-accumulation loop from any starting map adds, at each
key, the sums and the count of the elements assigned to that key. -/
theorem foldl_tallyStep {X : Type} (keyOf : X → String) (v1 v2 : X → ℚ)
    (xs : List X) (m : String → BucketAgg) (k : String) :
    (xs.foldl (tallyStep keyOf v1 v2) m) k =
      { viewsSum := (m k).viewsSum + ((xs.filter fun x => decide (keyOf x = k)).map v1).sum
        erSum := (m k).erSum + ((xs.filter fun x => decide (keyOf x = k)).map v2).sum
        count := (m k).count + (xs.filter fun x => decide (keyOf x = k)).length } := by
  induction xs generalizing m with
  | nil => simp
  | cons x xs ih =>
      rw [List.foldl_cons, ih]
      by_cases h : keyOf x = k
      · simp [tallyStep, h, List.filter_cons, add_assoc, add_comm, add_left_comm]
      · have h' : ¬ (k = keyOf x) := fun hk => h hk.symm
        simp [tallyStep, h, h', List.filter_cons]

/-- The accumulator map of a whole loop, at any key: the sums and count of
the elements assigned to that key. -/
theorem tallyFold_apply {X : Type} (keyOf : X → String) (v1 v2 : X → ℚ)
    (xs : List X) (k : String) :
    tallyFold keyOf v1 v2 xs k =
      { viewsSum := ((xs.filter fun x => decide (keyOf x = k)).map v1).sum
        erSum := ((xs.filter fun x => decide (keyOf x = k)).map v2).sum
        count := (xs.filter fun x => decide (keyOf x = k)).length } := by
  rw [tallyFold, foldl_tallyStep]
  simp

/-! ## A partition lemma: filters over a nodup key list cover the input -/

theorem indicator_sum_of_not_mem {β : Type} [DecidableEq β] (ks : List β) (b : β)
    (hb : b ∉ ks) : (ks.map fun k => if b = k then (1 : ℕ) else 0).sum = 0 := by
  induction ks with
  | nil => simp
  | cons k ks ih =>
      have h1 : b ≠ k := fun h => hb (h ▸ List.mem_cons_self k ks)
      have h2 : b ∉ ks := fun h => hb (List.mem_cons_of_mem k h)
      simp [h1, ih h2]

theorem indicator_sum_of_mem {β : Type} [DecidableEq β] (ks : List β) (b : β)
    (hnd : ks.Nodup) (hb : b ∈ ks) :
    (ks.map fun k => if b = k then (1 : ℕ) else 0).sum = 1 := by
  induction ks with
  | nil => simp at hb
  | cons k ks ih =>
      rcases List.mem_cons.mp hb with h | h
      · have hk : k ∉ ks := (List.nodup_cons.mp hnd).1
        simp [h, indicator_sum_of_not_mem ks k hk]
      · have hbk : b ≠ k := fun hb' => (List.nodup_cons.mp hnd).1 (hb' ▸ h)
        simp [hbk, ih (List.nodup_cons.mp hnd).2 h]

theorem sum_map_add_nat {β : Type} (ks : List β) (g h : β → ℕ) :
    (ks.map fun k => g k + h k).sum = (ks.map g).sum + (ks.map h).sum := by
  induction ks with
  | nil => simp
  | cons k ks ih => simp [ih]; omega

/-- If every element of `l` is assigned (by `f`) a key of the nodup list
`ks`, the per-key filter lengths sum to the length of `l`: the keys
partition the input. -/
theorem length_filter_partition {α β : Type} [DecidableEq β] (ks : List β) (f : α → β)
    (l : List α) (hnd : ks.Nodup) (hf : ∀ a ∈ l, f a ∈ ks) :
    (ks.map fun k => (l.filter fun a => decide (f a = k)).length).sum = l.length := by
  induction l with
  | nil => simp
  | cons a l ih =>
      have step : (ks.map fun k => ((a :: l).filter fun x => decide (f x = k)).length) =
          ks.map fun k => (if f a = k then 1 else 0) + (l.filter fun x => decide (f x = k)).length := by
        refine List.map_congr_left fun k _ => ?_
        by_cases h : f a = k
        · simp [List.filter_cons, h]
          omega
        · simp [List.filter_cons, h]
      rw [step, sum_map_add_nat,
        indicator_sum_of_mem ks (f a) hnd (hf a (List.mem_cons_self a l)),
        ih fun x hx => hf x (List.mem_cons_of_mem a hx)]
      simp [Nat.add_comm]

/-- The bucket chosen for a gap is always one of the five fixed buckets. -/
theorem gapBucketOf_mem (g : ℚ) : gapBucketOf g ∈ GAP_BUCKETS := by
  rw [gapBucketOf]
  cases h : GAP_BUCKETS.find? (inGapBucket g) with
  | some b => simpa using List.mem_of_find?_eq_some h
  | none => decide

/-- The segment chosen for an hour is always one of the five fixed
segments. -/
theorem timeSegmentOf_mem (h : Nat) : timeSegmentOf h ∈ TIME_SEGMENTS := by
  rw [timeSegmentOf]
  cases hf : TIME_SEGMENTS.find? (inTimeSegment h) with
  | some s => simpa using List.mem_of_find?_eq_some hf
  | none => decide

/-! ## First-occurrence keys -/

theorem mem_firstOccKeys {κ : Type} [DecidableEq κ] (xs : List κ) (a : κ) :
    a ∈ firstOccKeys xs ↔ a ∈ xs := by
  induction xs with
  | nil => simp [firstOccKeys]
  | cons k ks ih =>
      by_cases h : a = k
      · simp [firstOccKeys, h]
      · simp [firstOccKeys, h, List.mem_filter, ih]

theorem firstOccKeys_nodup {κ : Type} [DecidableEq κ] (xs : List κ) :
    (firstOccKeys xs).Nodup := by
  induction xs with
  | nil => exact List.nodup_nil
  | cons k ks ih =>
      refine List.nodup_cons.mpr ⟨fun hk => ?_, ih.filter _⟩
      have := (List.mem_filter.mp hk).2
      simp at this

theorem firstOccKeys_concat {κ : Type} [DecidableEq κ] (xs : List κ) (y : κ) :
    firstOccKeys (xs ++ [y]) =
      if y ∈ xs then firstOccKeys xs else firstOccKeys xs ++ [y] := by
  induction xs with
  | nil => simp [firstOccKeys]
  | cons x xs ih =>
      have hL : firstOccKeys ((x :: xs) ++ [y]) =
          x :: (firstOccKeys (xs ++ [y])).filter fun z => decide (z ≠ x) := rfl
      have hR : firstOccKeys (x :: xs) =
          x :: (firstOccKeys xs).filter fun z => decide (z ≠ x) := rfl
      rw [hL, ih, hR]
      by_cases hy : y ∈ xs
      · rw [if_pos hy, if_pos (List.mem_cons_of_mem x hy)]
      · rw [if_neg hy, List.filter_append]
        by_cases hxy : y = x
        · rw [if_pos (by rw [hxy]; exact List.mem_cons_self x xs)]
          simp [hxy]
        · have hmem : y ∉ x :: xs := by
            intro h
            rcases List.mem_cons.mp h with h | h
            · exact hxy h
            · exact hy h
          rw [if_neg hmem]
          simp [hxy]

/-! ## Characterization of the map-grouping loops -/

theorem mapFold_concat {κ α P : Type} [DecidableEq κ] (keyOf : P → κ) (mk0 : P → α)
    (upd : α → P → α) (xs : List P) (p : P) :
    mapFold keyOf mk0 upd (xs ++ [p]) =
      mapStep keyOf mk0 upd (mapFold keyOf mk0 upd xs) p := by
  rw [mapFold, mapFold, List.foldl_append, List.foldl_cons, List.foldl_nil]

/-- The net effect of a whole `Map`-grouping loop: the entry keys are the
record keys in first-occurrence order, and each entry's value is the
initial entry of the group's first record updated by every record of the
group in input order. -/
theorem mapFold_char {κ α P : Type} [DecidableEq κ] (keyOf : P → κ) (mk0 : P → α)
    (upd : α → P → α) (l : List P) :
    (mapFold keyOf mk0 upd l).map Prod.fst = firstOccKeys (l.map keyOf) ∧
    ∀ e ∈ mapFold keyOf mk0 upd l, ∃ p ps,
      l.filter (fun q => decide (keyOf q = e.1)) = p :: ps ∧
      e.2 = (p :: ps).foldl upd (mk0 p) := by
  induction l using List.reverseRecOn with
  | nil => exact ⟨rfl, by simp [mapFold]⟩
  | append_singleton xs p ih =>
      obtain ⟨hkeys, hval⟩ := ih
      rw [mapFold_concat]
      set M := mapFold keyOf mk0 upd xs with hM
      by_cases hmem : (M.any fun e => decide (e.1 = keyOf p)) = true
      · -- the key is already present: the map is updated in place
        have hkmem : keyOf p ∈ xs.map keyOf := by
          rw [← mem_firstOccKeys, ← hkeys]
          obtain ⟨e, he, hdec⟩ := List.any_eq_true.mp hmem
          exact List.mem_map.mpr ⟨e, he, of_decide_eq_true hdec⟩
        have hstep : mapStep keyOf mk0 upd M p =
            M.map fun e => if e.1 = keyOf p then (e.1, upd e.2 p) else e := by
          rw [mapStep, if_pos hmem]
        constructor
        · rw [hstep, List.map_map]
          simp only [List.map_append, List.map_cons, List.map_nil]
          rw [firstOccKeys_concat, if_pos hkmem, ← hkeys]
          refine List.map_congr_left fun e _ => ?_
          by_cases h : e.1 = keyOf p <;> simp [h]
        · rw [hstep]
          intro e' he'
          obtain ⟨e, he, hge⟩ := List.mem_map.mp he'
          by_cases h : e.1 = keyOf p
          · obtain ⟨p0, ps0, hfil, hv⟩ := hval e he
            rw [if_pos h] at hge
            refine ⟨p0, ps0 ++ [p], ?_, ?_⟩
            · rw [← hge]
              rw [List.filter_append, hfil]
              simp [h]
            · rw [← hge]
              simp only [List.cons_append, List.foldl_append]
              rw [hv]
              simp
          · rw [if_neg h] at hge
            obtain ⟨p0, ps0, hfil, hv⟩ := hval e he
            refine ⟨p0, ps0, ?_, by rw [← hge]; exact hv⟩
            rw [← hge, List.filter_append, hfil]
            have : keyOf p ≠ e.1 := fun hc => h hc.symm
            simp [this]
      · -- a fresh key: a zero entry is appended, then updated
        have hknot : keyOf p ∉ xs.map keyOf := by
          rw [← mem_firstOccKeys, ← hkeys]
          intro hc
          obtain ⟨e, he, hfe⟩ := List.mem_map.mp hc
          exact hmem (List.any_eq_true.mpr ⟨e, he, decide_eq_true hfe⟩)
        have hMkeys : ∀ e ∈ M, e.1 ≠ keyOf p := by
          intro e he hc
          refine hknot ?_
          rw [← mem_firstOccKeys, ← hkeys]
          exact hc ▸ List.mem_map.mpr ⟨e, he, rfl⟩
        have hstep : mapStep keyOf mk0 upd M p = M ++ [(keyOf p, upd (mk0 p) p)] := by
          rw [mapStep, if_neg hmem, List.map_append]
          congr 1
          · refine (List.map_congr_left fun e he => ?_).trans (List.map_id M)
            rw [if_neg (hMkeys e he)]
            rfl
          · simp
        have hgrpnil : xs.filter (fun q => decide (keyOf q = keyOf p)) = [] := by
          rw [List.filter_eq_nil_iff]
          intro q hq hdq
          exact hknot (List.mem_map.mpr ⟨q, hq, of_decide_eq_true hdq⟩)
        constructor
        · rw [hstep]
          simp only [List.map_append, List.map_cons, List.map_nil]
          rw [firstOccKeys_concat, if_neg hknot, ← hkeys]
        · rw [hstep]
          intro e' he'
          rcases List.mem_append.mp he' with he | he
          · obtain ⟨p0, ps0, hfil, hv⟩ := hval e' he
            refine ⟨p0, ps0, ?_, hv⟩
            rw [List.filter_append, hfil]
            have : keyOf p ≠ e'.1 := fun hc => hMkeys e' he hc.symm
            simp [this]
          · have he'' : e' = (keyOf p, upd (mk0 p) p) := by simpa using he
            subst he''
            refine ⟨p, [], ?_, by simp⟩
            rw [List.filter_append, hgrpnil]
            simp

/-! ## Fold-of-max and fold-of-sum helpers -/

theorem foldl_max_init_le (xs : List ℚ) (i : ℚ) : i ≤ xs.foldl max i := by
  induction xs generalizing i with
  | nil => exact le_refl i
  | cons x xs ih => exact le_trans (le_max_left i x) (ih (max i x))

theorem foldl_max_cases (xs : List ℚ) (i : ℚ) :
    xs.foldl max i = i ∨ xs.foldl max i ∈ xs := by
  induction xs generalizing i with
  | nil => exact Or.inl rfl
  | cons x xs ih =>
      rcases ih (max i x) with h | h
      · rcases max_choice i x with hm | hm
        · exact Or.inl (by rw [List.foldl_cons, h, hm])
        · exact Or.inr (by rw [List.foldl_cons, h, hm]; exact List.mem_cons_self x xs)
      · exact Or.inr (List.mem_cons_of_mem x h)

theorem le_foldl_max (xs : List ℚ) (i : ℚ) : ∀ x ∈ xs, x ≤ xs.foldl max i := by
  induction xs generalizing i with
  | nil => intro x hx; simp at hx
  | cons y xs ih =>
      intro x hx
      rcases List.mem_cons.mp hx with h | h
      · subst h
        exact le_trans (le_max_right i x) (foldl_max_init_le xs (max i x))
      · exact ih (max i y) x h

theorem foldl_add_eq_sum {X : Type} (f : X → ℚ) (l : List X) (s : ℚ) :
    l.foldl (fun acc x => acc + f x) s = s + (l.map f).sum := by
  induction l generalizing s with
  | nil => simp
  | cons x l ih => rw [List.foldl_cons, List.map_cons, List.sum_cons, ih, add_assoc]

/-! ## Stability of the ingestion sort -/

theorem filter_ts_orderedInsert (a : PostRecord) (l : List PostRecord) (t : Int) :
    (List.orderedInsert tsLE a l).filter (fun p => decide (getTime p.dateObj = t)) =
      ((a :: l).filter fun p => decide (getTime p.dateObj = t)) := by
  induction l with
  | nil => rfl
  | cons b l ih =>
      rw [List.orderedInsert]
      by_cases hr : tsLE a b
      · rw [if_pos hr]
      · rw [if_neg hr]
        have hba : getTime b.dateObj < getTime a.dateObj := not_le.mp hr
        by_cases hb : getTime b.dateObj = t <;> by_cases ha : getTime a.dateObj = t
        · exact absurd (hb.trans ha.symm) (ne_of_lt hba)
        · simp [List.filter_cons, hb, ha, ih]
        · simp [List.filter_cons, hb, ha, ih]
        · simp [List.filter_cons, hb, ha, ih]

theorem filter_ts_insertionSort (l : List PostRecord) (t : Int) :
    (List.insertionSort tsLE l).filter (fun p => decide (getTime p.dateObj = t)) =
      l.filter fun p => decide (getTime p.dateObj = t) := by
  induction l with
  | nil => rfl
  | cons a l ih =>
      rw [List.insertionSort, filter_ts_orderedInsert]
      simp [List.filter_cons, ih]

/-- The number of consecutive pairs of the gap aggregator: one less than
the number of records. -/
theorem gapPairs_length (l : List PostRecord) :
    (gapPairs l).length = l.length - 1 := by
  rw [gapPairs]
  simp only [List.length_zip, List.length_tail,
    (List.perm_insertionSort tsLE l).length_eq]
  exact min_eq_right (Nat.sub_le _ _)

/-! ## Claim C1 -/

/-- Claim C1, as stated, is false for the gap-bucket aggregator: two
records with identical timestamps give one consecutive pair, so the
per-bucket counts sum to 1, not to the record count 2 — the first record of
the sorted selection lands in no gap bucket. -/
theorem claim_C1_counterexample :
    2 ≤ ([rec0, rec1] : List PostRecord).length ∧
      (gapBucketCounts [rec0, rec1]).sum ≠ ([rec0, rec1] : List PostRecord).length := by
  constructor
  · decide
  · have hps : gapPairs [rec0, rec1] = [(rec0, rec1)] := by decide
    have hkey : gapKeyOf (rec0, rec1) = "<6" := by
      have h : gapHours rec0 rec1 = 0 := by simp [gapHours, getTime, rec0, rec1]
      rw [gapKeyOf, h]
      decide
    rw [gapBucketCounts]
    simp [gapAggMap, hps, tallyFold_apply, hkey, GAP_BUCKETS]

/-- Claim C1 (amended): for a selection of `n ≥ 2` records the gap
aggregator's per-bucket counts sum to `n - 1` (each consecutive pair of the
sorted selection lands in exactly one bucket); for the time-of-day
aggregator with `n ≥ 1` records the per-bucket counts sum to `n` (each
record lands in exactly one segment). -/
theorem claim_C1_partition : ∀ l : List PostRecord,
    (2 ≤ l.length → (gapBucketCounts l).sum = l.length - 1) ∧
    (1 ≤ l.length → (todBucketCounts l).sum = l.length) := by
  intro l
  constructor
  · intro _
    rw [gapBucketCounts]
    have hmap : (GAP_BUCKETS.map fun b => (gapAggMap l b.id).count) =
        (GAP_BUCKETS.map GapBucket.id).map fun k =>
          ((gapPairs l).filter fun pc => decide (gapKeyOf pc = k)).length := by
      rw [List.map_map]
      refine List.map_congr_left fun b _ => ?_
      rw [gapAggMap, tallyFold_apply]
      rfl
    rw [hmap, length_filter_partition _ _ _ (by decide)
      (fun pc _ => List.mem_map.mpr ⟨gapBucketOf (gapHours pc.1 pc.2), gapBucketOf_mem _, rfl⟩),
      gapPairs_length]
  · intro _
    rw [todBucketCounts]
    have hmap : (TIME_SEGMENTS.map fun s => (todAggMap l s.id).count) =
        (TIME_SEGMENTS.map TimeSegment.id).map fun k =>
          (l.filter fun p => decide (todKeyOf p = k)).length := by
      rw [List.map_map]
      refine List.map_congr_left fun s _ => ?_
      rw [todAggMap, tallyFold_apply]
      rfl
    rw [hmap, length_filter_partition _ _ _ (by decide)
      (fun p _ => List.mem_map.mpr ⟨timeSegmentOf p.hour, timeSegmentOf_mem _, rfl⟩)]

/-! ## Claim C2 -/

/-- Claim C2: below 2 records `gapStats` is empty; otherwise it outputs
exactly the five fixed buckets in `GAP_BUCKETS` order, each equal to the
spec-side bucket row (the *current* post of every consecutive pair of the
re-sorted selection is attributed to the bucket of the pair's gap, with
zero-filled averages for empty buckets); and a gap of exactly 12 hours
selects the `[12, 24)` bucket. -/
theorem claim_C2_gapStats : ∀ l : List PostRecord,
    (l.length < 2 → gapStats l = []) ∧
    (2 ≤ l.length →
      gapStats l = GAP_BUCKETS.map (gapBucketOut (gapPairs l)) ∧
      (gapStats l).length = 5 ∧
      (gapStats l).map GapOut.bucketId = ["<6", "6-12", "12-24", "24-48", ">48"]) ∧
    gapBucketOf 12 = { id := "12-24", label := "12–24 часа", min := 12, max := some 24 } := by
  intro l
  refine ⟨fun h => by rw [gapStats, if_pos h], fun h2 => ?_, by decide⟩
  have hne : ¬ l.length < 2 := by omega
  have hmain : gapStats l = GAP_BUCKETS.map (gapBucketOut (gapPairs l)) := by
    rw [gapStats, if_neg hne]
    refine List.map_congr_left fun b _ => ?_
    rw [gapBucketOut]
    simp only [gapAggMap, tallyFold_apply]
    by_cases hc : ((gapPairs l).filter fun pc => decide (gapKeyOf pc = b.id)).length = 0
    · simp [hc]
    · simp [hc]
  refine ⟨hmain, ?_, ?_⟩
  · rw [hmain, List.length_map]
    decide
  · rw [hmain, List.map_map]
    have hcomp : (GapOut.bucketId ∘ gapBucketOut (gapPairs l)) = GapBucket.id := by
      funext b
      rfl
    rw [hcomp]
    decide

/-! ## Field characterization of the normalizer -/

/-- Inversion for a successful `mapRowToPost`: the numeric fields of the
produced record. -/
theorem mapRowToPost_fields (env : JsEnv) (row : RawRow) (i : Nat) (rec : PostRecord)
    (h : mapRowToPost env row i = some rec) :
    rec.views = numOr0 env (nullishOr row.viewsToday row.viewsTotal) ∧
    rec.reactions = numOr0 env row.reactions ∧
    rec.er = deriveEr env row.er (numOr0 env (nullishOr row.viewsToday row.viewsTotal))
      (numOr0 env row.reactions) := by
  cases hd : parseDate env row.date with
  | none => rw [mapRowToPost, hd] at h; cases h
  | some d0 =>
      rw [mapRowToPost, hd] at h
      simp only [Option.some.injEq] at h
      subst h
      exact ⟨rfl, rfl, rfl⟩

/-- Inversion for a successful `mapRowToPostApp`: the numeric fields. -/
theorem mapRowToPostApp_fields (env : JsEnv) (row : RawRow) (i : Nat) (rec : PostRecord)
    (h : mapRowToPostApp env row i = some rec) :
    rec.views = numOr0 env (nullishOr row.viewsToday row.viewsTotal) ∧
    rec.reactions = numOr0 env row.reactions ∧
    rec.er = deriveEr env row.er (numOr0 env (nullishOr row.viewsToday row.viewsTotal))
      (numOr0 env row.reactions) := by
  cases hd : parseDate env row.date with
  | none => rw [mapRowToPostApp, hd] at h; cases h
  | some d0 =>
      rw [mapRowToPostApp, hd] at h
      simp only [Option.some.injEq] at h
      subst h
      exact ⟨rfl, rfl, rfl⟩

/-- With no present ER cell, the derived rate is `reactions / views` when
`views > 0`, else 0. -/
theorem deriveEr_not_present (env : JsEnv) (erCell : Cell) (v r : ℚ)
    (h : cellPresent erCell = false) :
    deriveEr env erCell v r = if 0 < v then r / v else 0 := by
  rw [deriveEr, if_neg]
  simp [h]

/-! ## Claim C3 -/

/-- Claim C3: in both normalizer variants, a row without a present ER cell
derives the engagement rate without dividing by zero: resolved views of 0
give a stored rate of 0, positive views give `reactions / views`. -/
theorem claim_C3_er_fallback : ∀ (env : JsEnv) (row : RawRow) (i : Nat) (rec : PostRecord),
    cellPresent row.er = false →
    mapRowToPost env row i = some rec ∨ mapRowToPostApp env row i = some rec →
    (rec.views = 0 → rec.er = 0) ∧ (0 < rec.views → rec.er = rec.reactions / rec.views) := by
  intro env row i rec hpres hmap
  have hfields := hmap.elim (mapRowToPost_fields env row i rec)
    (mapRowToPostApp_fields env row i rec)
  obtain ⟨hv, hr, he⟩ := hfields
  rw [deriveEr_not_present env row.er _ _ hpres, ← hv, ← hr] at he
  constructor
  · intro h0
    rw [he, if_neg]
    rw [h0]
    exact lt_irrefl 0
  · intro hpos
    rw [he, if_pos hpos]

/-- Witness for claim C3 at a concrete environment and row: `rowER` has a
blank ER cell, 4 views, 1 reaction; the produced record `recER` stores
`er = 1/4`. -/
theorem claim_C3_witness :
    (recER.views = 0 → recER.er = 0) ∧
      (0 < recER.views → recER.er = recER.reactions / recER.views) :=
  claim_C3_er_fallback cEnv rowER 0 recER rfl (Or.inl rfl)

/-! ## Claim C8 -/

/-- Claim C8, as stated, is false: the normalizer never clamps, so a row
whose reactions cell holds the finite number `-1` is accepted and produces
a record with negative `reactions` and a negative derived engagement
rate. -/
theorem claim_C8_counterexample :
    mapRowToPost cEnv rowNeg 0 = some recNeg ∧ recNeg.reactions < 0 ∧ recNeg.er < 0 := by
  refine ⟨rfl, ?_, ?_⟩
  · rw [recNeg]
    norm_num
  · rw [recNeg]
    norm_num

/-- Claim C8 (amended): `views` and `reactions` default to 0 when their
resolved cell does not coerce to a finite number; and whenever every
successful numeric coercion of the views, reactions and ER cells is
non-negative, the produced record has non-negative `views` and `reactions`
and an engagement rate in `[0, ∞)`. -/
theorem claim_C8_nonneg : ∀ (env : JsEnv) (row : RawRow) (i : Nat) (rec : PostRecord),
    mapRowToPost env row i = some rec →
    (∀ q ∈ jsToNum env (nullishOr row.viewsToday row.viewsTotal), 0 ≤ q) →
    (∀ q ∈ jsToNum env row.reactions, 0 ≤ q) →
    (∀ q ∈ jsToNum env row.er, 0 ≤ q) →
    0 ≤ rec.views ∧ 0 ≤ rec.reactions ∧ 0 ≤ rec.er ∧
    (jsToNum env (nullishOr row.viewsToday row.viewsTotal) = none → rec.views = 0) ∧
    (jsToNum env row.reactions = none → rec.reactions = 0) := by
  intro env row i rec hmap hv hr he
  obtain ⟨Hv, Hr, He⟩ := mapRowToPost_fields env row i rec hmap
  have hviews : 0 ≤ rec.views := by
    rw [Hv, numOr0]
    cases hj : jsToNum env (nullishOr row.viewsToday row.viewsTotal) with
    | none => exact le_refl 0
    | some q => exact hv q (by rw [hj]; rfl)
  have hreacts : 0 ≤ rec.reactions := by
    rw [Hr, numOr0]
    cases hj : jsToNum env row.reactions with
    | none => exact le_refl 0
    | some q => exact hr q (by rw [hj]; rfl)
  refine ⟨hviews, hreacts, ?_, ?_, ?_⟩
  · rw [He, deriveEr]
    by_cases hp : cellPresent row.er = true
    · rw [if_pos hp]
      cases hj : jsToNum env row.er with
      | none => exact le_refl 0
      | some q => exact div_nonneg (he q (by rw [hj]; rfl)) (by norm_num)
    · rw [if_neg hp]
      by_cases hpos : 0 < numOr0 env (nullishOr row.viewsToday row.viewsTotal)
      · rw [if_pos hpos]
        exact div_nonneg (Hr ▸ hreacts) (le_of_lt hpos)
      · rw [if_neg hpos]
  · intro hnone
    rw [Hv, numOr0, hnone]
    rfl
  · intro hnone
    rw [Hr, numOr0, hnone]
    rfl

/-- Witness for the amended claim C8 at a concrete row: `rowER` (4 views,
1 reaction, blank ER) satisfies the non-negativity side conditions and
yields `recER` with non-negative metrics. -/
theorem claim_C8_witness :
    0 ≤ recER.views ∧ 0 ≤ recER.reactions ∧ 0 ≤ recER.er ∧
    (jsToNum cEnv (nullishOr rowER.viewsToday rowER.viewsTotal) = none → recER.views = 0) ∧
    (jsToNum cEnv rowER.reactions = none → recER.reactions = 0) :=
  claim_C8_nonneg cEnv rowER 0 recER rfl
    (by
      intro q hq
      have h4 : 4 = q := by simpa [jsToNum, rowER, nullishOr] using hq
      rw [← h4]
      norm_num)
    (by
      intro q hq
      have h1 : 1 = q := by simpa [jsToNum, rowER] using hq
      rw [← h1]
      norm_num)
    (by intro q hq; simp [jsToNum, rowER, cEnv] at hq)

/-! ## Claim C5 -/

/-- Claim C5: the KPI aggregator returns all zeros on an empty selection,
and otherwise the record count and the three arithmetic means, with the
engagement rate exposed as a raw fraction (no `* 100`). -/
theorem claim_C5_kpi : ∀ l : List PostRecord,
    (l = [] → kpi l = { totalPosts := 0, avgViews := 0, avgReactions := 0, avgEr := 0 }) ∧
    (l ≠ [] → kpi l =
      { totalPosts := l.length
        avgViews := (l.map fun p => p.views).sum / (l.length : ℚ)
        avgReactions := (l.map fun p => p.reactions).sum / (l.length : ℚ)
        avgEr := (l.map fun p => p.er).sum / (l.length : ℚ) }) := by
  intro l
  constructor
  · intro h
    subst h
    rfl
  · intro h
    have hlen : ¬ l.length = 0 := fun hc => h (List.length_eq_zero.mp hc)
    rw [kpi, if_neg hlen]
    simp only [foldl_add_eq_sum, zero_add]

/-! ## Claim C6 -/

/-- The source's early-return filter predicate coincides with the
spec-side "satisfies all active selectors" predicate. -/
theorem postKept_eq (m t w : String) (p : PostRecord) :
    postKept m t w p = decide (matchesSelectors m t w p) := by
  by_cases h1 : m = "all" <;> by_cases h2 : p.monthKey = m <;>
    by_cases h3 : t = "all" <;> by_cases h4 : p.postType = t <;>
      by_cases h5 : w = "all" <;> by_cases h6 : p.weekdayLabel = w <;>
        simp [postKept, matchesSelectors, h1, h2, h3, h4, h5, h6]

/-- Claim C6: the filter stage returns exactly the subsequence of records
satisfying all active (non-"all") selectors, preserving store order, and
with all three selectors at "all" it is the identity. -/
theorem claim_C6_filter : ∀ (posts : List PostRecord) (m t w : String),
    filteredPosts posts m t w =
      posts.filter (fun p => decide (matchesSelectors m t w p)) ∧
    (filteredPosts posts m t w).Sublist posts ∧
    filteredPosts posts "all" "all" "all" = posts := by
  intro posts m t w
  refine ⟨?_, List.filter_sublist _, ?_⟩
  · rw [filteredPosts]
    exact List.filter_congr fun p _ => postKept_eq m t w p
  · rw [filteredPosts]
    refine List.filter_eq_self.mpr fun p _ => ?_
    rw [postKept]
    simp

/-! ## Claim C7 -/

/-- Claim C7: ingestion yields exactly the normalized records of the
non-skipped rows (as a permutation of the pre-sort list, whose ids are the
original row indices), sorted ascending by timestamp; and the sort is
stable — for every timestamp value, the records carrying it appear in the
same order as in the pre-sort (input-ordered) list. -/
theorem claim_C7_ingestion : ∀ (env : JsEnv) (rows : List RawRow),
    (ingestRows env rows).Perm (parsedRecords env rows) ∧
    (ingestRows env rows).Sorted tsLE ∧
    ∀ t : Int, (ingestRows env rows).filter (fun p => decide (getTime p.dateObj = t)) =
      (parsedRecords env rows).filter fun p => decide (getTime p.dateObj = t) := by
  intro env rows
  exact ⟨List.perm_insertionSort tsLE _, List.sorted_insertionSort tsLE _,
    fun t => filter_ts_insertionSort _ t⟩

/-! ## Claim C10 -/

/-- Claim C10: a falsy date cell — the number 0 (a valid date serial), the
empty string, `null` or `undefined` — is rejected by `parseDate`'s leading
falsy check before any serial or string decoding (for every host
environment, in particular ones whose serial decoder would accept 0), so
both normalizer variants skip the row. -/
theorem claim_C10_falsy_date : ∀ env : JsEnv,
    (∀ c : Cell, isTruthyCell c = false → parseDate env c = none) ∧
    (∀ (row : RawRow) (i : Nat), isTruthyCell row.date = false →
      mapRowToPost env row i = none ∧ mapRowToPostApp env row i = none) := by
  intro env
  have hp : ∀ c : Cell, isTruthyCell c = false → parseDate env c = none := by
    intro c hc
    rw [parseDate.eq_def, if_pos hc]
  refine ⟨hp, fun row i h => ⟨?_, ?_⟩⟩
  · rw [mapRowToPost, hp row.date h]
  · rw [mapRowToPostApp, hp row.date h]

/-! ## Payload folds of the weekday and heatmap loops -/

theorem wdViews_foldl (grp : List PostRecord) (w : String) (s : ℚ) (c : Nat) :
    grp.foldl (fun v p =>
        { weekday := v.weekday, viewsSum := v.viewsSum + p.views, count := v.count + 1 })
      (⟨w, s, c⟩ : WdViewsAgg) =
      ⟨w, s + (grp.map fun p => p.views).sum, c + grp.length⟩ := by
  induction grp generalizing s c with
  | nil => simp
  | cons p grp ih =>
      rw [List.foldl_cons, ih]
      simp [add_assoc, add_comm, add_left_comm]

theorem wdEr_foldl (grp : List PostRecord) (w : String) (s : ℚ) (c : Nat) :
    grp.foldl (fun v p =>
        { weekday := v.weekday, erSum := v.erSum + p.er, count := v.count + 1 })
      (⟨w, s, c⟩ : WdErAgg) =
      ⟨w, s + (grp.map fun p => p.er).sum, c + grp.length⟩ := by
  induction grp generalizing s c with
  | nil => simp
  | cons p grp ih =>
      rw [List.foldl_cons, ih]
      simp [add_assoc, add_comm, add_left_comm]

theorem heat_foldl (grp : List PostRecord) (wi : Nat) (wd : String) (hr : Nat)
    (s : ℚ) (c : Nat) :
    grp.foldl (fun v p => { v with viewsSum := v.viewsSum + p.views, count := v.count + 1 })
      (⟨wi, wd, hr, s, c⟩ : HeatAgg) =
      ⟨wi, wd, hr, s + (grp.map fun p => p.views).sum, c + grp.length⟩ := by
  induction grp generalizing s c with
  | nil => simp
  | cons p grp ih =>
      rw [List.foldl_cons, ih]
      simp [add_assoc, add_comm, add_left_comm]

/-- Sorting map entries by their numeric key yields a strictly increasing
key sequence when the keys are distinct. -/
theorem sorted_keys_lt {α : Type} (M : List (Nat × α)) (hnd : (M.map Prod.fst).Nodup) :
    ((List.insertionSort keyLE M).map Prod.fst).Sorted (· < ·) := by
  have hsor : List.Sorted keyLE (List.insertionSort keyLE M) :=
    List.sorted_insertionSort keyLE M
  have hle : List.Pairwise (fun a b : Nat => a ≤ b)
      ((List.insertionSort keyLE M).map Prod.fst) :=
    List.pairwise_map.mpr hsor
  have hnd' : ((List.insertionSort keyLE M).map Prod.fst).Nodup :=
    (((List.perm_insertionSort keyLE M).map Prod.fst).nodup_iff).mpr hnd
  exact (hle.and hnd').imp fun h => lt_of_le_of_ne h.1 h.2

/-! ## Claim C9 -/

/-- Claim C9: each grouped-by-weekday aggregator outputs one entry per
weekday index with at least one record (a key appears iff some record has
that index, and the key sequence is strictly increasing, so weekdays
without records are omitted rather than zero-filled), ordered ascending by
weekday index; each output row carries the group's mean views
(respectively mean engagement rate times 100). -/
theorem claim_C9_weekday : ∀ l : List PostRecord,
    ((wdViewsEntries l).map Prod.fst).Sorted (· < ·) ∧
    (∀ k : Nat, k ∈ (wdViewsEntries l).map Prod.fst ↔ ∃ p ∈ l, p.weekdayIndex = k) ∧
    (viewsByWeekday l = (wdViewsEntries l).map fun e =>
      { weekday := e.2.weekday
        avgViews := ((weekdayGroup l e.1).map fun p => p.views).sum /
          ((weekdayGroup l e.1).length : ℚ) }) ∧
    ((wdErEntries l).map Prod.fst).Sorted (· < ·) ∧
    (∀ k : Nat, k ∈ (wdErEntries l).map Prod.fst ↔ ∃ p ∈ l, p.weekdayIndex = k) ∧
    (erByWeekday l = (wdErEntries l).map fun e =>
      { weekday := e.2.weekday
        avgErPercent := (((weekdayGroup l e.1).map fun p => p.er).sum /
          ((weekdayGroup l e.1).length : ℚ)) * 100 }) := by
  intro l
  obtain ⟨hkeysV, hvalV⟩ := mapFold_char (fun p : PostRecord => p.weekdayIndex)
    (fun p => ({ weekday := p.weekdayLabel, viewsSum := 0, count := 0 } : WdViewsAgg))
    (fun v p => { weekday := v.weekday, viewsSum := v.viewsSum + p.views, count := v.count + 1 })
    l
  obtain ⟨hkeysE, hvalE⟩ := mapFold_char (fun p : PostRecord => p.weekdayIndex)
    (fun p => ({ weekday := p.weekdayLabel, erSum := 0, count := 0 } : WdErAgg))
    (fun v p => { weekday := v.weekday, erSum := v.erSum + p.er, count := v.count + 1 })
    l
  refine ⟨?_, ?_, ?_, ?_, ?_, ?_⟩
  · rw [wdViewsEntries]
    exact sorted_keys_lt _ (hkeysV ▸ firstOccKeys_nodup _)
  · intro k
    rw [wdViewsEntries,
      ((List.perm_insertionSort keyLE _).map Prod.fst).mem_iff, hkeysV,
      mem_firstOccKeys, List.mem_map]
  · rw [viewsByWeekday]
    refine List.map_congr_left fun e he => ?_
    have heM := ((List.perm_insertionSort keyLE _).mem_iff).mp (by rw [wdViewsEntries] at he; exact he)
    obtain ⟨p0, ps, hfil, hval⟩ := hvalV e heM
    have hgrp : weekdayGroup l e.1 = p0 :: ps := hfil
    rw [hgrp, hval, wdViews_foldl]
    simp
  · rw [wdErEntries]
    exact sorted_keys_lt _ (hkeysE ▸ firstOccKeys_nodup _)
  · intro k
    rw [wdErEntries,
      ((List.perm_insertionSort keyLE _).map Prod.fst).mem_iff, hkeysE,
      mem_firstOccKeys, List.mem_map]
  · rw [erByWeekday]
    refine List.map_congr_left fun e he => ?_
    have heM := ((List.perm_insertionSort keyLE _).mem_iff).mp (by rw [wdErEntries] at he; exact he)
    obtain ⟨p0, ps, hfil, hval⟩ := hvalE e heM
    have hgrp : weekdayGroup l e.1 = p0 :: ps := hfil
    rw [hgrp, hval, wdEr_foldl]
    simp

/-! ## Claim C4 -/

/-- Claim C4, as stated, is false in the all-zero case: a single record
with 0 views populates one cell whose mean is 0, yet `maxViews` is 1 (the
`|| 1` fallback fires on the falsy maximum 0), so `maxAvgViews` is neither
the maximum mean over populated cells (0) nor reserved for the no-cell
case. -/
theorem claim_C4_counterexample :
    (heatmapData [rec0]).cells ≠ [] ∧
    (∀ c ∈ (heatmapData [rec0]).cells, c.avgViews = 0) ∧
    (heatmapData [rec0]).maxViews = 1 := by
  have he : heatEntries [rec0] = [("1-9", ⟨1, "Пн", 9, 0 + rec0.views, 1⟩)] := by rfl
  have hc : heatCells [rec0] =
      [{ weekdayIndex := 1, weekday := "Пн", hour := 9, avgViews := 0 }] := by
    rw [heatCells, he]
    simp [rec0]
  have hcells : (heatmapData [rec0]).cells =
      [{ weekdayIndex := 1, weekday := "Пн", hour := 9, avgViews := 0 }] := hc
  have hm : heatFoldMax (heatCells [rec0]) = 0 := by
    rw [hc, heatFoldMax]
    simp
  refine ⟨by rw [hcells]; simp, by rw [hcells]; simp, ?_⟩
  show (if heatFoldMax (heatCells [rec0]) = 0 then 1 else heatFoldMax (heatCells [rec0])) = 1
  rw [if_pos hm]

/-- Claim C4 (amended): `maxViews` equals the fold-maximum of the populated
cells' mean views whenever that maximum is nonzero (and the maximum is then
attained by some populated cell); it equals 1 when there are no populated
cells, and — unlike the claim's "exactly when" — also when every populated
cell's mean floors the fold at 0.  Every populated cell's mean is bounded
by `maxViews`.  The §8 example holds: three records at (weekday 1, hour 9)
with views 10, 20, 30 produce the single cell with mean 20 and
`maxViews = 20`. -/
theorem claim_C4_heatmap : ∀ l : List PostRecord,
    ((heatmapData l).cells = [] → (heatmapData l).maxViews = 1) ∧
    (heatFoldMax (heatmapData l).cells = 0 → (heatmapData l).maxViews = 1) ∧
    (heatFoldMax (heatmapData l).cells ≠ 0 →
      (heatmapData l).maxViews = heatFoldMax (heatmapData l).cells ∧
      ∃ c ∈ (heatmapData l).cells, c.avgViews = heatFoldMax (heatmapData l).cells) ∧
    (∀ c ∈ (heatmapData l).cells, c.avgViews ≤ (heatmapData l).maxViews) ∧
    heatmapData [hrec1, hrec2, hrec3] =
      { cells := [{ weekdayIndex := 1, weekday := "Пн", hour := 9, avgViews := 20 }]
        maxViews := 20 } := by
  intro l
  have hcells : (heatmapData l).cells = heatCells l := rfl
  have hmaxdef : (heatmapData l).maxViews =
      if heatFoldMax (heatCells l) = 0 then 1 else heatFoldMax (heatCells l) := rfl
  have hfold : heatFoldMax (heatCells l) =
      ((heatCells l).map HeatCell.avgViews).foldl max 0 := by
    rw [heatFoldMax, List.foldl_map]
  refine ⟨?_, ?_, ?_, ?_, ?_⟩
  · intro hnil
    rw [hmaxdef, if_pos]
    rw [hcells] at hnil
    rw [hnil, heatFoldMax]
    rfl
  · intro h0
    rw [hcells] at h0
    rw [hmaxdef, if_pos h0]
  · intro hne
    rw [hcells] at hne
    refine ⟨by rw [hmaxdef, if_neg hne, hcells], ?_⟩
    rcases foldl_max_cases ((heatCells l).map HeatCell.avgViews) 0 with h | h
    · exact absurd (hfold.trans h) hne
    · obtain ⟨c, hc, hcv⟩ := List.mem_map.mp h
      exact ⟨c, by rw [hcells]; exact hc, by rw [hcells, hfold, hcv]⟩
  · intro c hc
    rw [hcells] at hc
    have hle : c.avgViews ≤ heatFoldMax (heatCells l) := by
      rw [hfold]
      exact le_foldl_max _ 0 c.avgViews (List.mem_map.mpr ⟨c, hc, rfl⟩)
    rw [hmaxdef]
    by_cases h0 : heatFoldMax (heatCells l) = 0
    · rw [if_pos h0]
      rw [h0] at hle
      exact le_trans hle (by norm_num)
    · rw [if_neg h0]
      exact hle
  · have he : heatEntries [hrec1, hrec2, hrec3] =
        [("1-9", ⟨1, "Пн", 9, ((0 + hrec1.views) + hrec2.views) + hrec3.views, 3⟩)] := by
      rfl
    have hc3 : heatCells [hrec1, hrec2, hrec3] =
        [{ weekdayIndex := 1, weekday := "Пн", hour := 9, avgViews := 20 }] := by
      rw [heatCells, he]
      simp [hrec1, hrec2, hrec3, rec0]
      norm_num
    have hmx : heatFoldMax (heatCells [hrec1, hrec2, hrec3]) = 20 := by
      rw [hc3, heatFoldMax]
      simp
    show HeatOut.mk (heatCells [hrec1, hrec2, hrec3])
        (if heatFoldMax (heatCells [hrec1, hrec2, hrec3]) = 0 then 1
         else heatFoldMax (heatCells [hrec1, hrec2, hrec3])) = _
    rw [hmx, hc3]
    norm_num
